import Mathlib

/-!
Verification development for the SAAMGE tentative-prolongator construction
(`src/amg/src/contrib.cpp`, class `ContribTent`) and the nonconforming
interior-penalty element-matrix provider (`ElementIPMatrix`, nonconf header).

Shallow embedding conventions:
* `mfem::DenseMatrix` values are represented column-major, as a `List` of
  columns, each column a `List ℚ` (the `double` entries are modelled by exact
  rationals; every claim settled here is about structural / exact-comparison
  behaviour, not rounding).
* The mutable `ContribTent` object is a record threaded explicitly; the
  mutable `SparseMatrix *tent_interp_` accumulating `Set(row, col, value)`
  calls is modelled as the list of those calls.
* `agg_is_dof_on_essential_border(agg_part_rels, row)` is an external
  predicate over dof indices, modelled as a parameter `essBdr : ℕ → Bool`.
* The external dense-SVD kernels (`xpack_svd_dense_arr` + `xpack_orth_set`)
  are modelled as an abstract function parameter returning the trimmed
  singular values together with the resulting orthonormal column set; none
  of the claims below depends on their numerics.
-/

namespace Saamge

/-- A dense-matrix column: the `dim` entries of one candidate basis vector. -/
abbrev Col := List ℚ

/-- A dense matrix, stored as its list of columns (mfem `DenseMatrix` is
column-major; `Width()` is the list length, `Height()` each column's length). -/
abbrev Mat := List Col

/-- One `SparseMatrix::Set(row, col, value)` call recorded by the tentative
interpolator: (fine row, coarse column, value). -/
abbrev Entry := ℕ × ℤ × ℚ

/-- State of a `ContribTent` object (contrib.cpp, constructor at line 57):
`rows` is the constructor's `ND`, `filled_cols` the running coarse-dof
counter, `tent_interp` the accumulated sparse `Set` calls. -/
structure ContribTent where
  rows : ℤ
  filled_cols : ℤ
  avoid_ess_bdr_dofs : Bool
  svd_eps : ℚ
  threshold : ℚ
  tent_interp : List Entry
  deriving Repr, DecidableEq

/-- `ContribTent::ContribTent(ND, avoid_ess_bdr_dofs_in)`: fresh state with
zero filled columns, `svd_eps = 1e-10`, `threshold_ = 0`. -/
def ContribTent.init (ND : ℤ) (avoid : Bool) : ContribTent :=
  { rows := ND
    filled_cols := 0
    avoid_ess_bdr_dofs := avoid
    svd_eps := 1 / 10 ^ 10
    threshold := 0
    tent_interp := [] }

/-- Outcome of a fatal `SA_ASSERT` (process abort). -/
inductive SAFatal where
  | assertFailed : SAFatal
  deriving Repr, DecidableEq

/-- `SA_ASSERT(cond)`: aborts the job when `cond` is false. -/
def saAssert (cond : Bool) : Except SAFatal Unit :=
  if cond then Except.ok () else Except.error SAFatal.assertFailed

/-! ### contrib_filter_boundary (contrib.cpp lines 102-163) -/

/-- Inner loop of `contrib_filter_boundary` over one column: the input pairs
each entry `a = data[j]` with its fine row `restriction[j]`; returns the
`newcolumn` buffer and the `atleastone` flag.  An entry is zeroed when it is
exactly `0.0` or (with `avoid_ess_bdr_dofs` on) its row is on the essential
boundary. -/
def filterBoundaryColumn (avoid : Bool) (essBdr : ℕ → Bool) :
    List (ℕ × ℚ) → Col × Bool
  | [] => ([], false)
  | (r, a) :: rest =>
    let tail := filterBoundaryColumn avoid essBdr rest
    if a = 0 ∨ (avoid ∧ essBdr r) then
      (0 :: tail.1, tail.2)
    else
      (a :: tail.1, true)

/-- Outer loop of `contrib_filter_boundary` over the columns: a column is
copied to `newdata` (in order) exactly when its `atleastone` flag is set;
an all-zero filtered column is dropped with a warning. -/
def filterBoundaryLoop (avoid : Bool) (essBdr : ℕ → Bool) (restr : List ℕ) :
    Mat → Mat
  | [] => []
  | c :: cs =>
    let fc := filterBoundaryColumn avoid essBdr (restr.zip c)
    let rest := filterBoundaryLoop avoid essBdr restr cs
    if fc.2 then fc.1 :: rest else rest

/-- `ContribTent::contrib_filter_boundary(agg_part_rels, local, restriction)`:
returns the new value of `local` (the matrix is rewritten in place with the
surviving filtered columns). -/
def contrib_filter_boundary (avoid : Bool) (essBdr : ℕ → Bool)
    (restr : List ℕ) (local_ : Mat) : Mat :=
  filterBoundaryLoop avoid essBdr restr local_

/-- The per-entry filtering rule of `contrib_filter_boundary`, as a pure
function of (row, entry). -/
def filterEntry (avoid : Bool) (essBdr : ℕ → Bool) (p : ℕ × ℚ) : ℚ :=
  if p.2 = 0 ∨ (avoid ∧ essBdr p.1) then 0 else p.2

/-- Filtered form of a whole column. -/
def filterCol (avoid : Bool) (essBdr : ℕ → Bool) (restr : List ℕ) (c : Col) :
    Col :=
  (restr.zip c).map (filterEntry avoid essBdr)

/-! ### contrib_tent_insert_simple (contrib.cpp lines 170-194) -/

/-- Entries recorded for one column of `contrib_tent_insert_simple`: for each
`j`, `Set(restriction[j], col, data[j])` is issued iff `|data[j]| > threshold_`. -/
def insertColumnEntries (threshold : ℚ) (restr : List ℕ) (colIdx : ℤ)
    (c : Col) : List Entry :=
  (restr.zip c).filterMap fun p =>
    if threshold < |p.2| then some (p.1, colIdx, p.2) else none

/-- Column loop of `contrib_tent_insert_simple`: `col` starts at
`filled_cols` and is incremented once per column, whether or not any entry of
that column survived the threshold. -/
def insertSimpleLoop (threshold : ℚ) (restr : List ℕ) : ℤ → Mat → List Entry
  | _, [] => []
  | colIdx, c :: cs =>
    insertColumnEntries threshold restr colIdx c ++
      insertSimpleLoop threshold restr (colIdx + 1) cs

/-- `ContribTent::contrib_tent_insert_simple(agg_part_rels, local, restriction)`:
records the surviving entries and advances `filled_cols` by `local.Width()`. -/
def contrib_tent_insert_simple (ct : ContribTent) (restr : List ℕ)
    (local_ : Mat) : ContribTent :=
  { ct with
    tent_interp :=
      ct.tent_interp ++ insertSimpleLoop ct.threshold restr ct.filled_cols local_
    filled_cols := ct.filled_cols + local_.length }

/-! ### contrib_tent_finalize (contrib.cpp lines 73-95) -/

/-- The finalized tentative prolongator: a sparse matrix of `size` rows and
exactly `width` columns, plus whether the zero-coarse-dof warning fired. -/
structure FinalizedTent where
  size : ℤ
  width : ℤ
  entries : List Entry
  warnedZero : Bool
  deriving Repr, DecidableEq

/-- `ContribTent::contrib_tent_finalize()`: asserts `filled_cols >= 0`, warns
(without failing) when `filled_cols == 0`, and rebuilds the sparse matrix
with exactly `rows` rows and `filled_cols` columns. -/
def contrib_tent_finalize (ct : ContribTent) : Except SAFatal FinalizedTent :=
  match saAssert (decide (0 ≤ ct.filled_cols)) with
  | Except.error e => Except.error e
  | Except.ok _ =>
    Except.ok
      { size := ct.rows
        width := ct.filled_cols
        entries := ct.tent_interp
        warnedZero := decide (ct.filled_cols = 0) }

/-- A sequence of `contrib_tent_insert_simple` calls, each with its
restriction list and local matrix, applied to a state. -/
def runInsertions (ct : ContribTent) (ops : List (List ℕ × Mat)) : ContribTent :=
  ops.foldl (fun s p => contrib_tent_insert_simple s p.1 p.2) ct

/-! ### the distributed coarse-truedof offset (contrib.cpp lines 683-686) -/

/-- `MPI_Scan(&num_coarse_dofs, &offset, 1, MPI_INT, MPI_SUM, PROC_COMM)`:
the MPI inclusive scan with `MPI_SUM` delivers, to rank `r`, the sum of the
contributions of ranks `0..r` inclusive. -/
def mpiScanSum (contribs : List ℤ) (r : ℕ) : ℤ :=
  (contribs.take (r + 1)).sum

/-- The code then subtracts the rank's own contribution:
`coarse_truedof_offset -= num_coarse_dofs`. -/
def coarse_truedof_offset (contribs : List ℤ) (r : ℕ) : ℤ :=
  mpiScanSum contribs r - contribs.getD r 0

/-! ### contrib_tent_insert_from_local (contrib.cpp lines 208-291, DEPRECATED) -/

/-- What happened to one column in the deprecated combined path:
dropped (`l1` norm below `1e-3`), accepted with a small-norm warning
(`l1` norm below `1e-1`), or accepted silently. -/
inductive ColOutcome where
  | rejected : ColOutcome
  | acceptedSmall : ColOutcome
  | accepted : ColOutcome
  deriving Repr, DecidableEq

/-- Per-column pass of `contrib_tent_insert_from_local`: builds `newcolumn`
(same boundary/zero filtering as `contrib_filter_boundary`) while summing
`adhoc_column_norm += fabs(a)` over the surviving entries. -/
def fromLocalColumn (avoid : Bool) (essBdr : ℕ → Bool) :
    List (ℕ × ℚ) → Col × ℚ
  | [] => ([], 0)
  | (r, a) :: rest =>
    let tail := fromLocalColumn avoid essBdr rest
    if a = 0 ∨ (avoid ∧ essBdr r) then
      (0 :: tail.1, tail.2)
    else
      (a :: tail.1, |a| + tail.2)

/-- The accept/reject decision of `contrib_tent_insert_from_local` on one
column, from its `adhoc_column_norm`. -/
def fromLocalOutcome (nrm : ℚ) : ColOutcome :=
  if nrm < 1 / 1000 then ColOutcome.rejected
  else if nrm < 1 / 10 then ColOutcome.acceptedSmall
  else ColOutcome.accepted

/-- Column loop of `contrib_tent_insert_from_local`: a rejected column is
skipped (no `Set` calls, `col` not incremented); an accepted column has all
of `newcolumn` written at column `col` (zeros included) and increments `col`.
Returns the recorded entries, the per-column outcomes, and the value the
local matrix is rewritten to (the accepted `newdata` columns). -/
def fromLocalLoop (avoid : Bool) (essBdr : ℕ → Bool) (restr : List ℕ) :
    ℤ → Mat → List Entry × List ColOutcome × Mat
  | _, [] => ([], [], [])
  | colIdx, c :: cs =>
    let fc := fromLocalColumn avoid essBdr (restr.zip c)
    if fc.2 < 1 / 1000 then
      let rest := fromLocalLoop avoid essBdr restr colIdx cs
      (rest.1, ColOutcome.rejected :: rest.2.1, rest.2.2)
    else
      let rest := fromLocalLoop avoid essBdr restr (colIdx + 1) cs
      ((restr.zip fc.1).map (fun p => (p.1, colIdx, p.2)) ++ rest.1,
       (if fc.2 < 1 / 10 then ColOutcome.acceptedSmall else ColOutcome.accepted)
         :: rest.2.1,
       fc.1 :: rest.2.2)

/-- `ContribTent::contrib_tent_insert_from_local(agg_part_rels, local,
restriction)` (the superseded combined filter-and-insert path): returns the
updated state, the per-column outcomes, and the rewritten local matrix. -/
def contrib_tent_insert_from_local (ct : ContribTent) (essBdr : ℕ → Bool)
    (restr : List ℕ) (local_ : Mat) :
    ContribTent × List ColOutcome × Mat :=
  let res := fromLocalLoop ct.avoid_ess_bdr_dofs essBdr restr ct.filled_cols local_
  ({ ct with
     tent_interp := ct.tent_interp ++ res.1
     filled_cols := ct.filled_cols + res.2.2.length },
   res.2.1, res.2.2)

/-! ### SVDInsert, per owned MIS (contrib.cpp lines 564-672) -/

/-- Result of processing one owned MIS inside `SVDInsert`: the updated
`ContribTent` state, the stored `mis_tent_interps[mis]` matrix, and
`mis_numcoarsedof[mis]` (the measured advance of `filled_cols`). -/
structure MisStep where
  ct : ContribTent
  interp : Mat
  numCoarse : ℤ
  deriving Repr, DecidableEq

/-- The body of the `SVDInsert` loop for a MIS owned by the calling rank
(`owner == PROC_RANK`), with the external SVD kernels
(`xpack_svd_dense_arr` followed by `xpack_orth_set` at `svd_eps`) abstracted
as `kern`, returning the trimmed singular values and the orthonormal basis:
1. with `avoid_ess_bdr_dofs` on, a MIS whose dofs all lie on the essential
   boundary contributes a `dim × 0` basis and zero coarse dofs;
2. otherwise a single-dof MIS gets the `1 × 1` basis `[[1]]`, inserted with
   `contrib_tent_insert_simple` (no SVD);
3. otherwise each received matrix is boundary-filtered; if no columns remain
   or every singular value was trimmed, the MIS contributes a `dim × 0` basis
   and zero coarse dofs; else the kernel's basis is inserted.
`numCoarse` is `filled_cols` after minus before the insertion, which
`SVDInsert` asserts equals the basis width. -/
def svdInsertOwnedMis (kern : List Mat → List ℚ × Mat) (ct : ContribTent)
    (essBdr : ℕ → Bool) (misDofs : List ℕ) (received : List Mat) : MisStep :=
  if ct.avoid_ess_bdr_dofs ∧ misDofs.all essBdr then
    { ct := ct, interp := [], numCoarse := 0 }
  else if misDofs.length = 1 then
    let interp : Mat := [[1]]
    let ct2 := contrib_tent_insert_simple ct misDofs interp
    { ct := ct2, interp := interp, numCoarse := ct2.filled_cols - ct.filled_cols }
  else
    let filtered := received.map
      (contrib_filter_boundary ct.avoid_ess_bdr_dofs essBdr misDofs)
    let total := (filtered.map List.length).sum
    if total = 0 then
      { ct := ct, interp := [], numCoarse := 0 }
    else
      let sv := kern filtered
      if sv.1.length = 0 then
        { ct := ct, interp := [], numCoarse := 0 }
      else
        let ct2 := contrib_tent_insert_simple ct misDofs sv.2
        { ct := ct2, interp := sv.2
          numCoarse := ct2.filled_cols - ct.filled_cols }

/-! ### ExtendWithPolynomials / ExtendWithRBMs (contrib.cpp lines 302-436) -/

/-- The all-ones column `extended(k, swidth) = 1.0`, `k < mis_size`. -/
def onesColumn (n : ℕ) : Col :=
  List.replicate n (1 : ℚ)

/-- Translation column `t` of the rigid-body extension (`0 ≤ t < sd`): the
node loop sets `extended(node*sd + d, swidth + d) = 1.0` for every node, so
row `k` holds `1` iff `k` lies in a complete node block and `k % sd = t`. -/
def rbmTransCol (sd ms t : ℕ) : Col :=
  List.ofFn fun k : Fin ms =>
    if k.val < ms / sd * sd ∧ k.val % sd = t then (1 : ℚ) else 0

/-- The node number used by `ExtendWithRBMs` for coordinate lookups:
`node_num = row[node*spatial_dimension] / spatial_dimension`. -/
def rbmNodeNum (sd : ℕ) (dofs : List ℕ) (node : ℕ) : ℕ :=
  dofs.getD (node * sd) 0 / sd

/-- The in-plane rotation column (`swidth + sd`): at node `node` it holds
`(y, -x)` at the first two dof rows (rows left untouched by the loop stay
`0`, as a fresh `DenseMatrix` is zero-initialized). -/
def rbmRotXYCol (sd ms : ℕ) (num_nodes : ℤ) (coords : ℤ → ℚ)
    (dofs : List ℕ) : Col :=
  List.ofFn fun k : Fin ms =>
    if k.val < ms / sd * sd then
      if k.val % sd = 0 then
        coords (num_nodes * 1 + (rbmNodeNum sd dofs (k.val / sd) : ℤ))
      else if k.val % sd = 1 then
        -coords (num_nodes * 0 + (rbmNodeNum sd dofs (k.val / sd) : ℤ))
      else 0
    else 0

/-- The first out-of-plane rotation column (`swidth + sd + 1`, 3-D only):
per node the rows hold `(0, z, -y)`. -/
def rbmRotYZCol (sd ms : ℕ) (num_nodes : ℤ) (coords : ℤ → ℚ)
    (dofs : List ℕ) : Col :=
  List.ofFn fun k : Fin ms =>
    if k.val < ms / sd * sd then
      if k.val % sd = 1 then
        coords (num_nodes * 2 + (rbmNodeNum sd dofs (k.val / sd) : ℤ))
      else if k.val % sd = 2 then
        -coords (num_nodes * 1 + (rbmNodeNum sd dofs (k.val / sd) : ℤ))
      else 0
    else 0

/-- The second out-of-plane rotation column (`swidth + sd + 2`, 3-D only):
per node the rows hold `(-z, 0, x)`. -/
def rbmRotXZCol (sd ms : ℕ) (num_nodes : ℤ) (coords : ℤ → ℚ)
    (dofs : List ℕ) : Col :=
  List.ofFn fun k : Fin ms =>
    if k.val < ms / sd * sd then
      if k.val % sd = 0 then
        -coords (num_nodes * 2 + (rbmNodeNum sd dofs (k.val / sd) : ℤ))
      else if k.val % sd = 2 then
        coords (num_nodes * 0 + (rbmNodeNum sd dofs (k.val / sd) : ℤ))
      else 0
    else 0

/-- The columns `ExtendWithRBMs` appends for spatial dimension `sd`:
`sd` translation columns, plus the in-plane rotation when `sd > 1`, plus the
two out-of-plane rotations when `sd > 2` (1, 3 or 6 columns in total). -/
def rbmColumns (sd ms : ℕ) (num_nodes : ℤ) (coords : ℤ → ℚ)
    (dofs : List ℕ) : Mat :=
  (List.range sd).map (rbmTransCol sd ms) ++
    (if 1 < sd then [rbmRotXYCol sd ms num_nodes coords dofs] else []) ++
    (if 2 < sd then
      [rbmRotYZCol sd ms num_nodes coords dofs,
       rbmRotXZCol sd ms num_nodes coords dofs]
     else [])

/-- Body of the `ExtendWithPolynomials` loop at index `mis`: a MIS not owned
by the calling rank is left untouched; an owned `NULL` slot is first
allocated as a `mis_size × 0` matrix (the "hack"); order `0` appends the
all-ones column, order `1` additionally appends one coordinate column per
spatial dimension (`coords(num_nodes*d + dof_num)`), any other order throws. -/
def polyStep (rank : ℕ) (order sdim num_nodes : ℤ) (coords : ℤ → ℚ)
    (owner : ℕ → ℕ) (misDofs : ℕ → List ℕ) (mis : ℕ) (slot : Option Mat) :
    Except Unit (Option Mat) :=
  if owner mis = rank then
    let dofs := misDofs mis
    let mat := slot.getD []
    if order = 0 then
      Except.ok (some (mat ++ [onesColumn dofs.length]))
    else if order = 1 then
      Except.ok (some (mat ++ onesColumn dofs.length ::
        (List.range sdim.toNat).map fun d : ℕ =>
          dofs.map fun dof : ℕ => coords (num_nodes * (d : ℤ) + (dof : ℤ))))
    else Except.error ()
  else Except.ok slot

/-- Body of the `ExtendWithRBMs` loop at index `mis`: owned slots (allocated
when `NULL`) are widened with the rigid-body columns; spatial dimensions
outside `{1, 2, 3}` throw; non-owned slots are untouched. -/
def rbmStep (rank : ℕ) (sdim num_nodes : ℤ) (coords : ℤ → ℚ)
    (owner : ℕ → ℕ) (misDofs : ℕ → List ℕ) (mis : ℕ) (slot : Option Mat) :
    Except Unit (Option Mat) :=
  if owner mis = rank then
    let dofs := misDofs mis
    let mat := slot.getD []
    if sdim = 1 ∨ sdim = 2 ∨ sdim = 3 then
      Except.ok
        (some (mat ++ rbmColumns sdim.toNat dofs.length num_nodes coords dofs))
    else Except.error ()
  else Except.ok slot

/-- The `for (mis = 0; mis < num_mises; ++mis)` loop shared by the two
extension routines: applies the per-MIS step in order; a C++ `throw` aborts
the whole call. -/
def extendLoop (f : ℕ → Option Mat → Except Unit (Option Mat)) :
    ℕ → List (Option Mat) → Except Unit (List (Option Mat))
  | _, [] => Except.ok []
  | i, slot :: rest =>
    match f i slot with
    | Except.error e => Except.error e
    | Except.ok s2 =>
      match extendLoop f (i + 1) rest with
      | Except.error e => Except.error e
      | Except.ok rest2 => Except.ok (s2 :: rest2)

/-- `ContribTent::ExtendWithPolynomials(received_mats, agg_part_rels, order,
spatial_dimension, num_nodes, coords)`: `received` is the `received_mats`
array indexed by MIS (`none` models a `NULL` slot). -/
def ExtendWithPolynomials (rank : ℕ) (order sdim num_nodes : ℤ)
    (coords : ℤ → ℚ) (owner : ℕ → ℕ) (misDofs : ℕ → List ℕ)
    (received : List (Option Mat)) : Except Unit (List (Option Mat)) :=
  extendLoop (polyStep rank order sdim num_nodes coords owner misDofs) 0 received

/-- `ContribTent::ExtendWithRBMs(received_mats, agg_part_rels,
spatial_dimension, num_nodes, coords)`. -/
def ExtendWithRBMs (rank : ℕ) (sdim num_nodes : ℤ) (coords : ℤ → ℚ)
    (owner : ℕ → ℕ) (misDofs : ℕ → List ℕ) (received : List (Option Mat)) :
    Except Unit (List (Option Mat)) :=
  extendLoop (rbmStep rank sdim num_nodes coords owner misDofs) 0 received

/-! ### ElementIPMatrix (nonconf header, lines 352-377) -/

/-- `ElementIPMatrix::GetMatrix(elno, free_matr)`: hits `SA_ASSERT(false)`
(there are no per-element matrices in the IP formulation), so it can never
reach the `free_matr = true; return new DenseMatrix;` tail. -/
def ElementIPMatrix.GetMatrix (elno : ℤ) : Except SAFatal (Mat × Bool) :=
  match saAssert false with
  | Except.error e => Except.error e
  | Except.ok _ => Except.ok (([] : Mat), true)

/-- `ElementIPMatrix::BuildAEStiff(elno)`: delegates to
`nonconf_AE_matrix(interp_data_nonconf, elno)` (defined in the nonconf
module's .cpp, outside the sources here; abstracted as a parameter) and
returns its matrix without any assertion. -/
def ElementIPMatrix.BuildAEStiff (nonconf_AE_matrix : ℤ → Mat) (elno : ℤ) :
    Except SAFatal Mat :=
  Except.ok (nonconf_AE_matrix elno)

/-! ## Lemmas and claim theorems -/

lemma filterBoundaryColumn_fst (avoid : Bool) (essBdr : ℕ → Bool) :
    ∀ l : List (ℕ × ℚ),
      (filterBoundaryColumn avoid essBdr l).1 = l.map (filterEntry avoid essBdr) := by
  intro l
  induction l with
  | nil => rfl
  | cons p rest ih =>
    obtain ⟨r, a⟩ := p
    by_cases h : a = 0 ∨ (avoid ∧ essBdr r)
    · simp only [filterBoundaryColumn, List.map_cons, filterEntry, if_pos h, ih]
    · simp only [filterBoundaryColumn, List.map_cons, filterEntry, if_neg h, ih]

lemma filterBoundaryColumn_snd (avoid : Bool) (essBdr : ℕ → Bool) :
    ∀ l : List (ℕ × ℚ),
      (filterBoundaryColumn avoid essBdr l).2
        = (filterBoundaryColumn avoid essBdr l).1.any (fun q => q != 0) := by
  intro l
  induction l with
  | nil => rfl
  | cons p rest ih =>
    obtain ⟨r, a⟩ := p
    by_cases h : a = 0 ∨ (avoid ∧ essBdr r)
    · simp [filterBoundaryColumn, if_pos h, ih]
    · have ha : a ≠ 0 := fun h0 => h (Or.inl h0)
      have hX : ¬(avoid = true ∧ essBdr r = true) := fun hx => h (Or.inr hx)
      simp [filterBoundaryColumn, if_neg h, hX, ha]

lemma contrib_filter_boundary_eq_filter (avoid : Bool) (essBdr : ℕ → Bool)
    (restr : List ℕ) :
    ∀ m : Mat,
      contrib_filter_boundary avoid essBdr restr m
        = (m.map (filterCol avoid essBdr restr)).filter
            (fun c => c.any (fun q => q != 0)) := by
  intro m
  induction m with
  | nil => rfl
  | cons c cs ih =>
    simp only [contrib_filter_boundary, filterBoundaryLoop, List.map_cons,
      List.filter_cons] at ih ⊢
    rw [filterBoundaryColumn_snd, filterBoundaryColumn_fst]
    by_cases h : ((restr.zip c).map (filterEntry avoid essBdr)).any (fun q => q != 0)
    · simp only [filterCol, h, if_pos, ih]
    · simp only [filterCol] at h ⊢
      rw [if_neg (by simpa using h)]
      simp only [Bool.not_eq_true] at h
      rw [h]
      exact ih

/-- C2: `contrib_filter_boundary` maps every entry through the zero-or-boundary
filtering rule (`filterEntry`: an entry is zeroed exactly when it is `0.0` or,
with the avoid-boundary option on, sits at an essential-boundary dof, and is
kept unchanged otherwise), removes exactly the columns whose filtered entries
are all zero, keeps the surviving columns in their original relative order
(the output is a sublist of the filtered columns), and on the 3-row by
2-column matrix whose column 0 has its only nonzero at the boundary-flagged
row 0 it returns a single-column matrix (column 0 dropped). -/
theorem contrib_filter_boundary_spec :
    ∀ (avoid : Bool) (essBdr : ℕ → Bool) (restr : List ℕ) (m : Mat),
      contrib_filter_boundary avoid essBdr restr m
        = (m.map (filterCol avoid essBdr restr)).filter
            (fun c => c.any (fun q => q != 0))
      ∧ (contrib_filter_boundary avoid essBdr restr m).Sublist
          (m.map (filterCol avoid essBdr restr))
      ∧ contrib_filter_boundary true (fun r => decide (r = 0)) [0, 1, 2]
          [[5, 0, 0], [0, 1, 1]] = [[0, 1, 1]] := by
  intro avoid essBdr restr m
  refine ⟨contrib_filter_boundary_eq_filter avoid essBdr restr m, ?_, by decide⟩
  rw [contrib_filter_boundary_eq_filter avoid essBdr restr m]
  exact List.filter_sublist _

/-- C3: the coarse-truedof offset computed from the inclusive `MPI_Scan` of
the per-rank coarse-dof counts, minus the rank's own count, equals the
exclusive prefix sum of the counts over all lower-ranked processes. -/
theorem coarse_truedof_offset_lower_ranks_sum :
    ∀ (contribs : List ℤ) (r : ℕ), r < contribs.length →
      coarse_truedof_offset contribs r = (contribs.take r).sum := by
  intro contribs r h
  unfold coarse_truedof_offset mpiScanSum
  rw [List.sum_take_succ contribs r h, List.getD_eq_getElem _ _ h]
  ring

/-- Witness for C3 on three ranks with counts `[3, 0, 5]` at rank 1. -/
theorem coarse_truedof_offset_lower_ranks_sum_witness :
    coarse_truedof_offset [3, 0, 5] 1 = 3 :=
  (coarse_truedof_offset_lower_ranks_sum [3, 0, 5] 1 (by decide)).trans (by decide)

lemma runInsertions_rows (ops : List (List ℕ × Mat)) :
    ∀ ct : ContribTent, (runInsertions ct ops).rows = ct.rows := by
  induction ops with
  | nil => intro ct; rfl
  | cons op rest ih =>
    intro ct
    simp only [runInsertions, List.foldl_cons] at ih ⊢
    rw [ih]
    rfl

lemma runInsertions_filled_cols (ops : List (List ℕ × Mat)) :
    ∀ ct : ContribTent,
      (runInsertions ct ops).filled_cols
        = ct.filled_cols + (ops.map fun p => ((p.2.length : ℤ))).sum := by
  induction ops with
  | nil => intro ct; simp [runInsertions]
  | cons op rest ih =>
    intro ct
    simp only [runInsertions, List.foldl_cons, List.map_cons, List.sum_cons] at ih ⊢
    rw [ih]
    simp only [contrib_tent_insert_simple]
    ring

/-- C6: after any sequence of insertions starting from a fresh `ContribTent`,
finalization succeeds and returns a sparse matrix with exactly the
constructor's `ND` rows and exactly the accumulated `filled_cols` columns
(which equals the total width of the inserted matrices); in particular a
zero accumulated column count does not fail — finalization still succeeds,
merely flagging the warning. -/
theorem contrib_tent_finalize_exact :
    ∀ (ND : ℤ) (avoid : Bool) (ops : List (List ℕ × Mat)),
      contrib_tent_finalize (runInsertions (ContribTent.init ND avoid) ops)
        = Except.ok
            { size := ND
              width := (runInsertions (ContribTent.init ND avoid) ops).filled_cols
              entries := (runInsertions (ContribTent.init ND avoid) ops).tent_interp
              warnedZero :=
                decide ((runInsertions (ContribTent.init ND avoid) ops).filled_cols = 0) }
      ∧ (runInsertions (ContribTent.init ND avoid) ops).filled_cols
          = (ops.map fun p => ((p.2.length : ℤ))).sum
      ∧ contrib_tent_finalize (ContribTent.init ND avoid)
          = Except.ok { size := ND, width := 0, entries := [], warnedZero := true } := by
  intro ND avoid ops
  have hfill := runInsertions_filled_cols ops (ContribTent.init ND avoid)
  have hsum : (0 : ℤ) ≤ (ops.map fun p => ((p.2.length : ℤ))).sum := by
    apply List.sum_nonneg
    intro x hx
    obtain ⟨p, _, hp⟩ := List.mem_map.mp hx
    omega
  have hpos : (0 : ℤ) ≤ (runInsertions (ContribTent.init ND avoid) ops).filled_cols := by
    rw [hfill]
    simpa [ContribTent.init] using hsum
  refine ⟨?_, by simpa [ContribTent.init] using hfill, by rfl⟩
  unfold contrib_tent_finalize saAssert
  rw [if_pos (by simpa using hpos)]
  rw [runInsertions_rows ops (ContribTent.init ND avoid)]
  rfl

lemma mem_insertColumnEntries {th : ℚ} {restr : List ℕ} {colIdx : ℤ} {c : Col}
    {e : Entry} (he : e ∈ insertColumnEntries th restr colIdx c) :
    th < |e.2.2| ∧ e.2.1 = colIdx := by
  unfold insertColumnEntries at he
  rw [List.mem_filterMap] at he
  obtain ⟨p, _, hif⟩ := he
  by_cases hth : th < |p.2|
  · rw [if_pos hth] at hif
    obtain rfl := Option.some_injective _ hif
    exact ⟨hth, rfl⟩
  · rw [if_neg hth] at hif
    exact absurd hif (by simp)

lemma insertColumnEntries_eq_nil {th : ℚ} {restr : List ℕ} {colIdx : ℤ} {c : Col}
    (hall : ∀ a ∈ c, |a| ≤ th) :
    insertColumnEntries th restr colIdx c = [] := by
  unfold insertColumnEntries
  rw [List.filterMap_eq_nil_iff]
  intro p hp
  rw [if_neg (not_lt.mpr (hall p.2 (List.of_mem_zip hp).2))]

lemma mem_insertSimpleLoop {th : ℚ} {restr : List ℕ} :
    ∀ (m : Mat) (c0 : ℤ) (e : Entry), e ∈ insertSimpleLoop th restr c0 m →
      ∃ i, ∃ hi : i < m.length,
        e ∈ insertColumnEntries th restr (c0 + i) (m.get ⟨i, hi⟩) := by
  intro m
  induction m with
  | nil => intro c0 e he; exact absurd he (by simp [insertSimpleLoop])
  | cons c cs ih =>
    intro c0 e he
    rw [insertSimpleLoop, List.mem_append] at he
    rcases he with he | he
    · exact ⟨0, by simp, by simpa using he⟩
    · obtain ⟨i, hi, hmem⟩ := ih (c0 + 1) e he
      refine ⟨i + 1, by simpa using hi, ?_⟩
      have harith : c0 + 1 + (i : ℤ) = c0 + ((i : ℕ) + 1 : ℕ) := by push_cast; ring
      rw [harith] at hmem
      simpa using hmem

/-- C9: `contrib_tent_insert_simple` always advances `filled_cols` by exactly
the width of the local basis (validating the `SA_ASSERT` in `SVDInsert` that
the advance equals the basis width); every entry it records strictly exceeds
the magnitude threshold; and a column all of whose entries are at or below
the threshold contributes no sparse entries at its column index — yet, by the
first part, it still consumes that coarse-dof id. -/
theorem insert_simple_advances_filled_cols
    (ct : ContribTent) (restr : List ℕ) (m : Mat) (i : ℕ) (h : i < m.length)
    (hall : ∀ a ∈ m.get ⟨i, h⟩, |a| ≤ ct.threshold) :
    (contrib_tent_insert_simple ct restr m).filled_cols
      = ct.filled_cols + m.length
    ∧ (∀ e ∈ (contrib_tent_insert_simple ct restr m).tent_interp,
        e ∈ ct.tent_interp ∨ ct.threshold < |e.2.2|)
    ∧ (∀ e ∈ (contrib_tent_insert_simple ct restr m).tent_interp,
        e ∈ ct.tent_interp ∨ e.2.1 ≠ ct.filled_cols + i) := by
  refine ⟨rfl, ?_, ?_⟩
  · intro e he
    rw [contrib_tent_insert_simple] at he
    rcases List.mem_append.mp he with he | he
    · exact Or.inl he
    · obtain ⟨j, hj, hmem⟩ := mem_insertSimpleLoop m ct.filled_cols e he
      exact Or.inr (mem_insertColumnEntries hmem).1
  · intro e he
    rw [contrib_tent_insert_simple] at he
    rcases List.mem_append.mp he with he | he
    · exact Or.inl he
    · obtain ⟨j, hj, hmem⟩ := mem_insertSimpleLoop m ct.filled_cols e he
      refine Or.inr ?_
      intro hcol
      have hj2 : e.2.1 = ct.filled_cols + (j : ℤ) := (mem_insertColumnEntries hmem).2
      have hji : (j : ℤ) = (i : ℤ) := by omega
      have hji2 : j = i := by exact_mod_cast hji
      subst hji2
      rw [insertColumnEntries_eq_nil hall] at hmem
      exact absurd hmem (by simp)

/-- Witness for C9: inserting a 2-column basis whose first column is entirely
at the (zero) threshold still advances `filled_cols` by 2. -/
theorem insert_simple_advances_filled_cols_witness :
    (contrib_tent_insert_simple (ContribTent.init 3 false) [0, 1]
        [[0, 0], [1, 2]]).filled_cols = 2 := by
  have h := (insert_simple_advances_filled_cols (ContribTent.init 3 false) [0, 1]
    [[0, 0], [1, 2]] 0 (by decide) (by intro a ha; simpa [ContribTent.init] using
      (by simpa using ha : a = 0 ∨ a = 0))).1
  simpa [ContribTent.init] using h

/-- C1 counterexample: a MIS with exactly one dof that lies on the essential
boundary, processed with `avoid_ess_bdr_dofs` on, is skipped by the
essential-boundary check before the single-dof branch is reached: its basis
is the empty (1 × 0) matrix, not `[[1]]`, and it contributes zero coarse
dofs. -/
theorem svdInsert_single_bdr_dof_skipped :
    ¬((svdInsertOwnedMis (fun _ => ([], [])) (ContribTent.init 1 true)
          (fun _ => true) [0] [[[5]]]).interp = [[1]]
      ∧ (svdInsertOwnedMis (fun _ => ([], [])) (ContribTent.init 1 true)
          (fun _ => true) [0] [[[5]]]).numCoarse = 1) := by
  decide

/-- C1 (amended): for a MIS with exactly one dof that is not skipped by the
essential-boundary check (the avoid-boundary option is off, or the dof is not
on the essential boundary), `SVDInsert` emits the 1 × 1 basis `[[1]]` without
consulting the SVD kernel (the result holds for every kernel), and the MIS
contributes exactly one coarse dof. -/
theorem svdInsert_single_dof_identity
    (kern : List Mat → List ℚ × Mat) (ct : ContribTent) (essBdr : ℕ → Bool)
    (d : ℕ) (received : List Mat)
    (h : ¬(ct.avoid_ess_bdr_dofs = true ∧ essBdr d = true)) :
    (svdInsertOwnedMis kern ct essBdr [d] received).interp = [[1]]
    ∧ (svdInsertOwnedMis kern ct essBdr [d] received).numCoarse = 1 := by
  have hc : ¬(ct.avoid_ess_bdr_dofs = true ∧ ([d].all essBdr) = true) := by
    simpa using h
  unfold svdInsertOwnedMis
  rw [if_neg hc, if_pos (by simp : ([d] : List ℕ).length = 1)]
  refine ⟨rfl, ?_⟩
  simp [contrib_tent_insert_simple]

/-- Witness for C1 (amended) at a concrete non-boundary single-dof MIS. -/
theorem svdInsert_single_dof_identity_witness :
    (svdInsertOwnedMis (fun _ => ([], [])) (ContribTent.init 1 true)
        (fun _ => false) [0] [[[5]]]).interp = [[1]] :=
  (svdInsert_single_dof_identity (fun _ => ([], [])) (ContribTent.init 1 true)
    (fun _ => false) 0 [[[5]]] (by decide)).1

/-- C8: asking the aggregate-only provider `ElementIPMatrix` for a
per-element matrix is fatal for every element number — the call hits
`SA_ASSERT(false)` and never reaches its return — while the aggregate-level
query `BuildAEStiff` always answers with the agglomerate IP matrix. -/
theorem elementIPMatrix_getMatrix_fatal :
    ∀ elno : ℤ,
      ElementIPMatrix.GetMatrix elno = Except.error SAFatal.assertFailed
      ∧ ∀ (nonconf_AE_matrix : ℤ → Mat) (elno2 : ℤ),
          ElementIPMatrix.BuildAEStiff nonconf_AE_matrix elno2
            = Except.ok (nonconf_AE_matrix elno2) := by
  intro elno
  exact ⟨rfl, fun _ _ => rfl⟩

lemma extendLoop_ok_spec (f : ℕ → Option Mat → Except Unit (Option Mat)) :
    ∀ (l : List (Option Mat)) (i : ℕ) (out : List (Option Mat)),
      extendLoop f i l = Except.ok out →
      out.length = l.length
      ∧ ∀ j, ∀ hj : j < l.length, ∀ hj2 : j < out.length,
          f (i + j) (l.get ⟨j, hj⟩) = Except.ok (out.get ⟨j, hj2⟩) := by
  intro l
  induction l with
  | nil =>
    intro i out h
    simp only [extendLoop] at h
    cases h
    exact ⟨rfl, fun j hj => absurd hj (by simp)⟩
  | cons slot rest ih =>
    intro i out h
    simp only [extendLoop] at h
    cases hfi : f i slot with
    | error e => rw [hfi] at h; cases h
    | ok s2 =>
      rw [hfi] at h
      cases hrec : extendLoop f (i + 1) rest with
      | error e => rw [hrec] at h; cases h
      | ok rest2 =>
        rw [hrec] at h
        cases h
        obtain ⟨hlen, hget⟩ := ih (i + 1) rest2 hrec
        refine ⟨by simp [hlen], ?_⟩
        intro j hj hj2
        cases j with
        | zero => simpa using hfi
        | succ j2 =>
          have harith : i + (j2 + 1) = (i + 1) + j2 := by omega
          rw [harith]
          exact hget j2 (by simpa using hj) (by simpa using hj2)

lemma extendLoop_total (f : ℕ → Option Mat → Except Unit (Option Mat))
    (hf : ∀ k s, ∃ t, f k s = Except.ok t) :
    ∀ (l : List (Option Mat)) (i : ℕ), ∃ out, extendLoop f i l = Except.ok out := by
  intro l
  induction l with
  | nil => intro i; exact ⟨[], rfl⟩
  | cons slot rest ih =>
    intro i
    obtain ⟨t, ht⟩ := hf i slot
    obtain ⟨out, hout⟩ := ih (i + 1)
    exact ⟨t :: out, by simp [extendLoop, ht, hout]⟩

/-- C10: the extension routines only touch MISes owned by the calling rank:
whenever `ExtendWithPolynomials` or `ExtendWithRBMs` returns, the slot of
every MIS with a different owner is exactly the input slot (a `NULL` slot
stays `NULL`, a present matrix is not widened). -/
theorem extend_routines_frame (rank : ℕ) (num_nodes : ℤ) (coords : ℤ → ℚ)
    (owner : ℕ → ℕ) (misDofs : ℕ → List ℕ) (received : List (Option Mat))
    (mis : ℕ) (h2 : mis < received.length) (h3 : owner mis ≠ rank) :
    (∀ (order sdim : ℤ) (out : List (Option Mat)),
        ExtendWithPolynomials rank order sdim num_nodes coords owner misDofs
            received = Except.ok out →
        out.get? mis = received.get? mis)
    ∧ (∀ (sdim : ℤ) (out : List (Option Mat)),
        ExtendWithRBMs rank sdim num_nodes coords owner misDofs received
            = Except.ok out →
        out.get? mis = received.get? mis) := by
  constructor
  · intro order sdim out hok
    obtain ⟨hlen, hget⟩ := extendLoop_ok_spec _ received 0 out hok
    have h2o : mis < out.length := by omega
    have hstep := hget mis h2 h2o
    rw [Nat.zero_add] at hstep
    rw [polyStep, if_neg h3] at hstep
    rw [List.get?_eq_get h2, List.get?_eq_get h2o]
    exact congrArg some (Except.ok.inj hstep).symm
  · intro sdim out hok
    obtain ⟨hlen, hget⟩ := extendLoop_ok_spec _ received 0 out hok
    have h2o : mis < out.length := by omega
    have hstep := hget mis h2 h2o
    rw [Nat.zero_add] at hstep
    rw [rbmStep, if_neg h3] at hstep
    rw [List.get?_eq_get h2, List.get?_eq_get h2o]
    exact congrArg some (Except.ok.inj hstep).symm

/-- Witness for C10: a single MIS owned by rank 1 is untouched by rank 0's
extension call (even at an order that would throw on an owned MIS). -/
theorem extend_routines_frame_witness :
    ExtendWithPolynomials 0 3 2 1 (fun _ => 0) (fun _ => 1) (fun _ => [0])
        [some [[2]]] = Except.ok [some [[2]]]
    ∧ ([some [[(2 : ℚ)]]] : List (Option Mat)).get? 0
        = ([some [[(2 : ℚ)]]] : List (Option Mat)).get? 0 :=
  ⟨rfl,
   (extend_routines_frame 0 1 (fun _ => 0) (fun _ => 1) (fun _ => [0])
      [some [[2]]] 0 (by decide) (by decide)).1 3 2 [some [[2]]] rfl⟩

/-- C4: for an owned MIS with a present width-`w` contribution matrix,
`ExtendWithPolynomials` with order 0 succeeds and widens that MIS's matrix by
exactly the all-ones column (width `w + 1`, appended column identically 1);
with order 1 it appends the all-ones column plus one column per spatial
dimension holding `coords(num_nodes*d + dof)` at each dof row (width
`w + 1 + spatial_dimension`); and any order other than 0 or 1 makes the whole
call throw. -/
theorem extendWithPolynomials_spec (rank : ℕ) (sdim num_nodes : ℤ)
    (coords : ℤ → ℚ) (owner : ℕ → ℕ) (misDofs : ℕ → List ℕ)
    (received : List (Option Mat)) (mis : ℕ) (mat : Mat)
    (h1 : mis < received.length) (h2 : owner mis = rank)
    (h3 : received.get ⟨mis, h1⟩ = some mat) :
    (∃ out,
        ExtendWithPolynomials rank 0 sdim num_nodes coords owner misDofs
            received = Except.ok out
        ∧ ∃ hm : mis < out.length,
            out.get ⟨mis, hm⟩ = some (mat ++ [onesColumn (misDofs mis).length]))
    ∧ (∃ out,
        ExtendWithPolynomials rank 1 sdim num_nodes coords owner misDofs
            received = Except.ok out
        ∧ ∃ hm : mis < out.length,
            out.get ⟨mis, hm⟩
              = some (mat ++ onesColumn (misDofs mis).length ::
                  (List.range sdim.toNat).map fun d : ℕ =>
                    (misDofs mis).map fun dof : ℕ =>
                      coords (num_nodes * (d : ℤ) + (dof : ℤ))))
    ∧ (mat ++ [onesColumn (misDofs mis).length]).length = mat.length + 1
    ∧ (mat ++ onesColumn (misDofs mis).length ::
        (List.range sdim.toNat).map fun d : ℕ =>
          (misDofs mis).map fun dof : ℕ =>
            coords (num_nodes * (d : ℤ) + (dof : ℤ))).length
        = mat.length + 1 + sdim.toNat
    ∧ (∀ q ∈ onesColumn (misDofs mis).length, q = 1)
    ∧ (∀ order : ℤ, order ≠ 0 → order ≠ 1 →
        ExtendWithPolynomials rank order sdim num_nodes coords owner misDofs
            received = Except.error ()) := by
  refine ⟨?_, ?_, by simp,
    by
      rw [List.length_append, List.length_cons, List.length_map,
        List.length_range]
      omega,
    ?_, ?_⟩
  · have hf : ∀ k s, ∃ t,
        polyStep rank 0 sdim num_nodes coords owner misDofs k s = Except.ok t := by
      intro k s
      unfold polyStep
      by_cases hk : owner k = rank
      · rw [if_pos hk, if_pos rfl]
        exact ⟨_, rfl⟩
      · rw [if_neg hk]
        exact ⟨_, rfl⟩
    obtain ⟨out, hout⟩ := extendLoop_total _ hf received 0
    obtain ⟨hlen, hget⟩ := extendLoop_ok_spec _ received 0 out hout
    have h2o : mis < out.length := by omega
    have hstep := hget mis h1 h2o
    rw [Nat.zero_add, h3] at hstep
    simp only [polyStep, h2, if_pos, if_true, eq_self_iff_true,
      Option.getD_some] at hstep
    exact ⟨out, hout, h2o, (Except.ok.inj hstep).symm⟩
  · have hf : ∀ k s, ∃ t,
        polyStep rank 1 sdim num_nodes coords owner misDofs k s = Except.ok t := by
      intro k s
      unfold polyStep
      by_cases hk : owner k = rank
      · rw [if_pos hk, if_neg (by decide : ¬(1 : ℤ) = 0), if_pos rfl]
        exact ⟨_, rfl⟩
      · rw [if_neg hk]
        exact ⟨_, rfl⟩
    obtain ⟨out, hout⟩ := extendLoop_total _ hf received 0
    obtain ⟨hlen, hget⟩ := extendLoop_ok_spec _ received 0 out hout
    have h2o : mis < out.length := by omega
    have hstep := hget mis h1 h2o
    rw [Nat.zero_add, h3] at hstep
    simp only [polyStep, h2, if_pos, if_true, eq_self_iff_true,
      Option.getD_some, if_neg (by decide : ¬(1 : ℤ) = 0)] at hstep
    exact ⟨out, hout, h2o, (Except.ok.inj hstep).symm⟩
  · intro q hq
    exact List.eq_of_mem_replicate hq
  · intro order ho0 ho1
    cases hres : ExtendWithPolynomials rank order sdim num_nodes coords owner
        misDofs received with
    | error e => cases e; rfl
    | ok out =>
      exfalso
      obtain ⟨hlen, hget⟩ := extendLoop_ok_spec _ received 0 out hres
      have h2o : mis < out.length := by omega
      have hstep := hget mis h1 h2o
      rw [Nat.zero_add, h3] at hstep
      simp only [polyStep, h2, if_pos, if_true, eq_self_iff_true,
        Option.getD_some, if_neg ho0, if_neg ho1] at hstep
      cases hstep

/-- Witness for C4 at a concrete 2-dof owned MIS holding one column. -/
theorem extendWithPolynomials_spec_witness :
    ∃ out,
      ExtendWithPolynomials 0 0 2 2 (fun z => (z : ℚ)) (fun _ => 0)
          (fun _ => [0, 1]) [some [[3, 4]]] = Except.ok out
      ∧ ∃ hm : 0 < out.length,
          out.get ⟨0, hm⟩ = some ([[3, 4]] ++ [onesColumn 2]) :=
  (extendWithPolynomials_spec 0 2 2 (fun z => (z : ℚ)) (fun _ => 0)
    (fun _ => [0, 1]) [some [[3, 4]]] 0 [[3, 4]] (by decide) rfl rfl).1

lemma rbm2d_entries (ms : ℕ) (nn : ℤ) (crd : ℤ → ℚ) (dofs : List ℕ)
    (node : ℕ) (h : 2 * node + 1 < ms) :
    (rbmTransCol 2 ms 0).get? (2 * node) = some 1
    ∧ (rbmTransCol 2 ms 0).get? (2 * node + 1) = some 0
    ∧ (rbmTransCol 2 ms 1).get? (2 * node) = some 0
    ∧ (rbmTransCol 2 ms 1).get? (2 * node + 1) = some 1
    ∧ (rbmRotXYCol 2 ms nn crd dofs).get? (2 * node)
        = some (crd (nn * 1 + (rbmNodeNum 2 dofs node : ℤ)))
    ∧ (rbmRotXYCol 2 ms nn crd dofs).get? (2 * node + 1)
        = some (-crd (nn * 0 + (rbmNodeNum 2 dofs node : ℤ))) := by
  have heven : 2 * node < ms := by omega
  have hg : 2 * node < ms / 2 * 2 := by omega
  have hg2 : 2 * node + 1 < ms / 2 * 2 := by omega
  refine ⟨?_, ?_, ?_, ?_, ?_, ?_⟩
  · rw [rbmTransCol, List.get?_ofFn, List.ofFnNthVal, dif_pos heven]
    show some (if 2 * node < ms / 2 * 2 ∧ 2 * node % 2 = 0 then (1 : ℚ) else 0)
      = some 1
    rw [if_pos ⟨hg, by omega⟩]
  · rw [rbmTransCol, List.get?_ofFn, List.ofFnNthVal, dif_pos h]
    show some
        (if 2 * node + 1 < ms / 2 * 2 ∧ (2 * node + 1) % 2 = 0 then (1 : ℚ) else 0)
      = some 0
    rw [if_neg (by omega : ¬(2 * node + 1 < ms / 2 * 2 ∧ (2 * node + 1) % 2 = 0))]
  · rw [rbmTransCol, List.get?_ofFn, List.ofFnNthVal, dif_pos heven]
    show some (if 2 * node < ms / 2 * 2 ∧ 2 * node % 2 = 1 then (1 : ℚ) else 0)
      = some 0
    rw [if_neg (by omega : ¬(2 * node < ms / 2 * 2 ∧ 2 * node % 2 = 1))]
  · rw [rbmTransCol, List.get?_ofFn, List.ofFnNthVal, dif_pos h]
    show some
        (if 2 * node + 1 < ms / 2 * 2 ∧ (2 * node + 1) % 2 = 1 then (1 : ℚ) else 0)
      = some 1
    rw [if_pos ⟨hg2, by omega⟩]
  · rw [rbmRotXYCol, List.get?_ofFn, List.ofFnNthVal, dif_pos heven]
    show some
        (if 2 * node < ms / 2 * 2 then
          if 2 * node % 2 = 0 then
            crd (nn * 1 + (rbmNodeNum 2 dofs (2 * node / 2) : ℤ))
          else if 2 * node % 2 = 1 then
            -crd (nn * 0 + (rbmNodeNum 2 dofs (2 * node / 2) : ℤ))
          else 0
         else 0)
      = some (crd (nn * 1 + (rbmNodeNum 2 dofs node : ℤ)))
    rw [if_pos hg, if_pos (by omega : 2 * node % 2 = 0),
      show 2 * node / 2 = node by omega]
  · rw [rbmRotXYCol, List.get?_ofFn, List.ofFnNthVal, dif_pos h]
    show some
        (if 2 * node + 1 < ms / 2 * 2 then
          if (2 * node + 1) % 2 = 0 then
            crd (nn * 1 + (rbmNodeNum 2 dofs ((2 * node + 1) / 2) : ℤ))
          else if (2 * node + 1) % 2 = 1 then
            -crd (nn * 0 + (rbmNodeNum 2 dofs ((2 * node + 1) / 2) : ℤ))
          else 0
         else 0)
      = some (-crd (nn * 0 + (rbmNodeNum 2 dofs node : ℤ)))
    rw [if_pos hg2, if_neg (by omega : ¬(2 * node + 1) % 2 = 0),
      if_pos (by omega : (2 * node + 1) % 2 = 1),
      show (2 * node + 1) / 2 = node by omega]

/-- C5: for an owned MIS with a present width-`w` contribution matrix,
`ExtendWithRBMs` in 2-D succeeds and appends exactly the three rigid-body
columns (width `w + 3`): the two translation columns form stacked 2 × 2
identity blocks over the node rows, and the rotation column holds
`(y_i, -x_i)` at node `i`'s two dof rows (coordinates looked up at
`node_num = dofs[2i] / 2`); in 1-D exactly 1 column and in 3-D exactly 6
columns are appended; and any spatial dimension outside `{1, 2, 3}` makes
the whole call throw. -/
theorem extendWithRBMs_spec (rank : ℕ) (num_nodes : ℤ) (coords : ℤ → ℚ)
    (owner : ℕ → ℕ) (misDofs : ℕ → List ℕ) (received : List (Option Mat))
    (mis : ℕ) (mat : Mat) (h1 : mis < received.length) (h2 : owner mis = rank)
    (h3 : received.get ⟨mis, h1⟩ = some mat) :
    (∃ out,
        ExtendWithRBMs rank 2 num_nodes coords owner misDofs received
            = Except.ok out
        ∧ ∃ hm : mis < out.length,
            out.get ⟨mis, hm⟩
              = some (mat ++ rbmColumns 2 (misDofs mis).length num_nodes coords
                  (misDofs mis)))
    ∧ (∀ (ms : ℕ) (nn : ℤ) (crd : ℤ → ℚ) (dofs : List ℕ),
        rbmColumns 2 ms nn crd dofs
          = [rbmTransCol 2 ms 0, rbmTransCol 2 ms 1, rbmRotXYCol 2 ms nn crd dofs])
    ∧ (mat ++ rbmColumns 2 (misDofs mis).length num_nodes coords
        (misDofs mis)).length = mat.length + 3
    ∧ (∀ (ms : ℕ) (nn : ℤ) (crd : ℤ → ℚ) (dofs : List ℕ) (node : ℕ),
        2 * node + 1 < ms →
        (rbmTransCol 2 ms 0).get? (2 * node) = some 1
        ∧ (rbmTransCol 2 ms 0).get? (2 * node + 1) = some 0
        ∧ (rbmTransCol 2 ms 1).get? (2 * node) = some 0
        ∧ (rbmTransCol 2 ms 1).get? (2 * node + 1) = some 1
        ∧ (rbmRotXYCol 2 ms nn crd dofs).get? (2 * node)
            = some (crd (nn * 1 + (rbmNodeNum 2 dofs node : ℤ)))
        ∧ (rbmRotXYCol 2 ms nn crd dofs).get? (2 * node + 1)
            = some (-crd (nn * 0 + (rbmNodeNum 2 dofs node : ℤ))))
    ∧ (∃ out,
        ExtendWithRBMs rank 1 num_nodes coords owner misDofs received
            = Except.ok out
        ∧ ∃ hm : mis < out.length,
            out.get ⟨mis, hm⟩
              = some (mat ++ rbmColumns 1 (misDofs mis).length num_nodes coords
                  (misDofs mis)))
    ∧ (∀ (ms : ℕ) (nn : ℤ) (crd : ℤ → ℚ) (dofs : List ℕ),
        (rbmColumns 1 ms nn crd dofs).length = 1
        ∧ (rbmColumns 3 ms nn crd dofs).length = 6)
    ∧ (∃ out,
        ExtendWithRBMs rank 3 num_nodes coords owner misDofs received
            = Except.ok out
        ∧ ∃ hm : mis < out.length,
            out.get ⟨mis, hm⟩
              = some (mat ++ rbmColumns 3 (misDofs mis).length num_nodes coords
                  (misDofs mis)))
    ∧ (∀ sdim : ℤ, sdim ≠ 1 → sdim ≠ 2 → sdim ≠ 3 →
        ExtendWithRBMs rank sdim num_nodes coords owner misDofs received
          = Except.error ()) := by
  have hok2 : ((2 : ℤ) = 1 ∨ (2 : ℤ) = 2 ∨ (2 : ℤ) = 3) := by norm_num
  have hok1 : ((1 : ℤ) = 1 ∨ (1 : ℤ) = 2 ∨ (1 : ℤ) = 3) := by norm_num
  have hok3 : ((3 : ℤ) = 1 ∨ (3 : ℤ) = 2 ∨ (3 : ℤ) = 3) := by norm_num
  refine ⟨?_, fun ms nn crd dofs => rfl,
    by rw [List.length_append]; rfl,
    fun ms nn crd dofs node hnode => rbm2d_entries ms nn crd dofs node hnode,
    ?_, fun ms nn crd dofs => ⟨rfl, rfl⟩, ?_, ?_⟩
  · have hf : ∀ k s, ∃ t,
        rbmStep rank 2 num_nodes coords owner misDofs k s = Except.ok t := by
      intro k s
      unfold rbmStep
      by_cases hk : owner k = rank
      · rw [if_pos hk, if_pos hok2]
        exact ⟨_, rfl⟩
      · rw [if_neg hk]
        exact ⟨_, rfl⟩
    obtain ⟨out, hout⟩ := extendLoop_total _ hf received 0
    obtain ⟨hlen, hget⟩ := extendLoop_ok_spec _ received 0 out hout
    have h2o : mis < out.length := by omega
    have hstep := hget mis h1 h2o
    rw [Nat.zero_add, h3] at hstep
    unfold rbmStep at hstep
    rw [if_pos h2, if_pos hok2] at hstep
    simp only [Option.getD_some, Int.toNat_ofNat] at hstep
    exact ⟨out, hout, h2o, (Except.ok.inj hstep).symm⟩
  · have hf : ∀ k s, ∃ t,
        rbmStep rank 1 num_nodes coords owner misDofs k s = Except.ok t := by
      intro k s
      unfold rbmStep
      by_cases hk : owner k = rank
      · rw [if_pos hk, if_pos hok1]
        exact ⟨_, rfl⟩
      · rw [if_neg hk]
        exact ⟨_, rfl⟩
    obtain ⟨out, hout⟩ := extendLoop_total _ hf received 0
    obtain ⟨hlen, hget⟩ := extendLoop_ok_spec _ received 0 out hout
    have h2o : mis < out.length := by omega
    have hstep := hget mis h1 h2o
    rw [Nat.zero_add, h3] at hstep
    unfold rbmStep at hstep
    rw [if_pos h2, if_pos hok1] at hstep
    simp only [Option.getD_some, Int.toNat_one] at hstep
    exact ⟨out, hout, h2o, (Except.ok.inj hstep).symm⟩
  · have hf : ∀ k s, ∃ t,
        rbmStep rank 3 num_nodes coords owner misDofs k s = Except.ok t := by
      intro k s
      unfold rbmStep
      by_cases hk : owner k = rank
      · rw [if_pos hk, if_pos hok3]
        exact ⟨_, rfl⟩
      · rw [if_neg hk]
        exact ⟨_, rfl⟩
    obtain ⟨out, hout⟩ := extendLoop_total _ hf received 0
    obtain ⟨hlen, hget⟩ := extendLoop_ok_spec _ received 0 out hout
    have h2o : mis < out.length := by omega
    have hstep := hget mis h1 h2o
    rw [Nat.zero_add, h3] at hstep
    unfold rbmStep at hstep
    rw [if_pos h2, if_pos hok3] at hstep
    simp only [Option.getD_some, Int.toNat_ofNat] at hstep
    exact ⟨out, hout, h2o, (Except.ok.inj hstep).symm⟩
  · intro sdim hs1 hs2 hs3
    cases hres : ExtendWithRBMs rank sdim num_nodes coords owner misDofs
        received with
    | error e => cases e; rfl
    | ok out =>
      exfalso
      obtain ⟨hlen, hget⟩ := extendLoop_ok_spec _ received 0 out hres
      have h2o : mis < out.length := by omega
      have hstep := hget mis h1 h2o
      rw [Nat.zero_add, h3] at hstep
      unfold rbmStep at hstep
      rw [if_pos h2, if_neg (by tauto : ¬(sdim = 1 ∨ sdim = 2 ∨ sdim = 3))]
        at hstep
      cases hstep

/-- Witness for C5 at a concrete owned 2-node (4-dof) MIS with an empty
initial contribution. -/
theorem extendWithRBMs_spec_witness :
    ∃ out,
      ExtendWithRBMs 0 2 2 (fun z => (z : ℚ)) (fun _ => 0)
          (fun _ => [0, 1, 2, 3]) [some []] = Except.ok out
      ∧ ∃ hm : 0 < out.length,
          out.get ⟨0, hm⟩
            = some (([] : Mat) ++ rbmColumns 2 ((fun _ : ℕ => [0, 1, 2, 3]) 0).length 2
                (fun z => (z : ℚ)) ((fun _ : ℕ => [0, 1, 2, 3]) 0)) :=
  (extendWithRBMs_spec 0 2 (fun z => (z : ℚ)) (fun _ => 0)
    (fun _ => [0, 1, 2, 3]) [some []] 0 [] (by decide) rfl rfl).1

lemma fromLocalLoop_outcomes (avoid : Bool) (essBdr : ℕ → Bool)
    (restr : List ℕ) :
    ∀ (m : Mat) (c0 : ℤ),
      (fromLocalLoop avoid essBdr restr c0 m).2.1
        = m.map fun c =>
            fromLocalOutcome (fromLocalColumn avoid essBdr (restr.zip c)).2 := by
  intro m
  induction m with
  | nil => intro c0; rfl
  | cons c cs ih =>
    intro c0
    by_cases h : (fromLocalColumn avoid essBdr (restr.zip c)).2 < 1 / 1000
    · simp only [fromLocalLoop, if_pos h, List.map_cons, fromLocalOutcome, ih]
    · simp only [fromLocalLoop, if_neg h, List.map_cons, fromLocalOutcome, ih]

lemma fromLocalLoop_accepted_count (avoid : Bool) (essBdr : ℕ → Bool)
    (restr : List ℕ) :
    ∀ (m : Mat) (c0 : ℤ),
      (fromLocalLoop avoid essBdr restr c0 m).2.2.length
        = ((fromLocalLoop avoid essBdr restr c0 m).2.1.filter
            (fun o => o != ColOutcome.rejected)).length := by
  intro m
  induction m with
  | nil => intro c0; rfl
  | cons c cs ih =>
    intro c0
    by_cases h : (fromLocalColumn avoid essBdr (restr.zip c)).2 < 1 / 1000
    · simp only [fromLocalLoop, if_pos h, List.filter_cons]
      simpa using ih c0
    · by_cases h2 : (fromLocalColumn avoid essBdr (restr.zip c)).2 < 1 / 10
      · simp only [fromLocalLoop, if_neg h, if_pos h2, List.filter_cons,
          List.length_cons]
        simpa using ih (c0 + 1)
      · simp only [fromLocalLoop, if_neg h, if_neg h2, List.filter_cons,
          List.length_cons]
        simpa using ih (c0 + 1)

/-- C7 counterexample: in `contrib_tent_insert_from_local`, a single column
whose filtered `l1` norm is `1/10000` — well below the `1e-1` magnitude
sanity threshold — is not accepted with a warning but rejected outright
(it is below the `1e-3` rejection cutoff): no sparse entry is recorded and
`filled_cols` does not advance. -/
theorem insert_from_local_small_column_rejected :
    (contrib_tent_insert_from_local (ContribTent.init 1 false) (fun _ => false)
        [0] [[1 / 10000]]).2.1 = [ColOutcome.rejected]
    ∧ (contrib_tent_insert_from_local (ContribTent.init 1 false) (fun _ => false)
        [0] [[1 / 10000]]).1.filled_cols = 0
    ∧ (contrib_tent_insert_from_local (ContribTent.init 1 false) (fun _ => false)
        [0] [[1 / 10000]]).1.tent_interp = []
    ∧ (fromLocalColumn false (fun _ => false) ([0].zip [1 / 10000])).2
        < 1 / 10 := by
  have hcol : fromLocalColumn false (fun _ => false) ([0].zip [(1 : ℚ) / 10000])
      = ([(1 : ℚ) / 10000], 1 / 10000) := by
    norm_num [fromLocalColumn]
  have hnorm :
      (fromLocalColumn false (fun _ => false) ([0].zip [(1 : ℚ) / 10000])).2
        < 1 / 1000 := by
    rw [hcol]
    norm_num
  have hloop : fromLocalLoop false (fun _ => false) [0] 0 [[(1 : ℚ) / 10000]]
      = ([], [ColOutcome.rejected], []) := by
    simp only [fromLocalLoop]
    rw [if_pos hnorm]
  refine ⟨?_, ?_, ?_, ?_⟩
  · simp only [contrib_tent_insert_from_local, ContribTent.init]
    rw [hloop]
  · simp only [contrib_tent_insert_from_local, ContribTent.init]
    rw [hloop]
    rfl
  · simp only [contrib_tent_insert_from_local, ContribTent.init]
    rw [hloop]
    rfl
  · rw [hcol]
    norm_num

/-- C7 (amended): in the superseded combined path a column's fate is decided
by its filtered `l1` norm against the two cutoffs of `fromLocalOutcome` —
below `1e-3` the column is rejected (dropped with a warning); at least
`1e-3` but below the `1e-1` sanity threshold it is accepted into the
tentative prolongator with a small-norm warning; at or above `1e-1` it is
accepted silently — and `filled_cols` advances by exactly the number of
non-rejected columns. -/
theorem insert_from_local_outcome_spec (ct : ContribTent) (essBdr : ℕ → Bool)
    (restr : List ℕ) (m : Mat) :
    (contrib_tent_insert_from_local ct essBdr restr m).2.1
      = (m.map fun c =>
          fromLocalOutcome
            (fromLocalColumn ct.avoid_ess_bdr_dofs essBdr (restr.zip c)).2)
    ∧ (contrib_tent_insert_from_local ct essBdr restr m).1.filled_cols
        = ct.filled_cols
          + ((contrib_tent_insert_from_local ct essBdr restr m).2.1.filter
              (fun o => o != ColOutcome.rejected)).length := by
  refine ⟨?_, ?_⟩
  · exact fromLocalLoop_outcomes ct.avoid_ess_bdr_dofs essBdr restr m
      ct.filled_cols
  · have hcount := fromLocalLoop_accepted_count ct.avoid_ess_bdr_dofs essBdr
      restr m ct.filled_cols
    simp only [contrib_tent_insert_from_local]
    rw [hcount]

end Saamge
